import Mathlib

/-!
# Task-tracker CLI: shallow embedding and verification

This file embeds the single-file C++ task tracker (`src/main.cpp`) into Lean:
strings are modelled as `List Char`, the data file as one such string, the
in-memory collection as `List Task`, and each CLI invocation as a function
from argument list and file content to an optional exit code and new file
content (`none` models an uncaught exception aborting the process, as
happens when `std::stoi` throws during `load_tasks`).
-/

namespace TaskCLI

/-- C++ `std::string` is modelled as a list of characters. -/
abbrev Str := List Char

/-- The field delimiter `SEP = '|'`. -/
def SEP : Char := '|'

/-- Characters stripped by `trim` (the literal `" \t\n\r"`). -/
def isTrimWS (c : Char) : Bool := c = ' ' || c = '\t' || c = '\n' || c = '\r'

/-- `trim`: drop leading and trailing `" \t\n\r"`, as in `main.cpp`. -/
def trim (s : Str) : Str :=
  ((s.dropWhile isTrimWS).reverse.dropWhile isTrimWS).reverse

/-- `is_valid_date`: ten characters, dashes at positions 4 and 7, digits elsewhere. -/
def is_valid_date (d : Str) : Bool :=
  match d with
  | [c0, c1, c2, c3, c4, c5, c6, c7, c8, c9] =>
    c4 = '-' && c7 = '-' && [c0, c1, c2, c3, c5, c6, c8, c9].all Char.isDigit
  | _ => false

/-- `prio_weight`: H ↦ 0, M ↦ 1, L ↦ 2, default 1. -/
def prio_weight (p : Char) : Nat :=
  if p = 'H' then 0 else if p = 'M' then 1 else if p = 'L' then 2 else 1

/-- `encode_field`: replace the delimiter by `'/'`, then erase `'\n'` and `'\r'`. -/
def encode_field (s : Str) : Str :=
  ((s.map fun c => if c = SEP then '/' else c).filter fun c => c != '\n').filter
    fun c => c != '\r'

/-- Prepend a character to the first field of a field list (used by `split`
to model reading characters up to the next delimiter). -/
def consField (c : Char) : List Str → List Str
  | [] => [[c]]
  | f :: fs => (c :: f) :: fs

/-- `split(line, delim)` with `std::getline` semantics: the field before each
delimiter is produced, and a trailing delimiter does not produce a final empty
field (reading an empty rest fails at end of stream). -/
def split (delim : Char) : Str → List Str
  | [] => []
  | c :: cs =>
    if c = delim then [] :: split delim cs
    else consField c (split delim cs)

/-- Decimal digit character for a value below ten. -/
def digitChar (n : Nat) : Char := Char.ofNat (48 + n)

/-- The decimal digits, least significant first, with explicit fuel (the
fuel only needs to be at least the number, making the recursion
structural). -/
def natRevDigitsAux : Nat → Nat → List Char
  | _, 0 => []
  | 0, _ + 1 => []
  | fuel + 1, n + 1 => digitChar ((n + 1) % 10) :: natRevDigitsAux fuel ((n + 1) / 10)

/-- The decimal digits of a positive number, least significant first. -/
def natRevDigits (n : Nat) : List Char := natRevDigitsAux n n

/-- Decimal representation of a natural number, as printed by `operator<<`. -/
def natRepr (n : Nat) : Str := if n = 0 then ['0'] else (natRevDigits n).reverse

/-- Decimal representation of a C++ `int`, as printed by `operator<<`. -/
def intRepr (i : Int) : Str :=
  if i < 0 then '-' :: natRepr i.natAbs else natRepr i.toNat

/-- Value of a digit string, most significant first. -/
def digitsVal (ds : Str) : Nat := ds.foldl (fun acc c => acc * 10 + (c.toNat - 48)) 0

/-- `std::isspace` in the default locale. -/
def isCppSpace (c : Char) : Bool :=
  c = ' ' || c = '\t' || c = '\n' || c = Char.ofNat 11 || c = Char.ofNat 12 || c = '\r'

/-- Largest value of a 32-bit C++ `int`. -/
def INT_MAX : Int := 2147483647

/-- Smallest value of a 32-bit C++ `int`. -/
def INT_MIN : Int := -2147483648

/-- `std::stoi`: skip leading whitespace, read an optional sign and a maximal
nonempty digit run (trailing characters are ignored), and throw — modelled as
`none` — when there is no digit or the value does not fit in `int`. -/
def stoi (s : Str) : Option Int :=
  let t := s.dropWhile isCppSpace
  let u := if t.headD (Char.ofNat 0) = '-' ∨ t.headD (Char.ofNat 0) = '+' then t.tail else t
  let ds := u.takeWhile Char.isDigit
  if ds = [] then none
  else
    let v : Int :=
      if t.headD (Char.ofNat 0) = '-' then -(digitsVal ds : Int) else (digitsVal ds : Int)
    if v < INT_MIN ∨ INT_MAX < v then none else some v

/-- `parse_int`: `std::stoi` with any exception mapped to `-1`. -/
def parse_int (s : Str) : Int := (stoi s).getD (-1)

/-- The `Task` record of `main.cpp`. -/
structure Task where
  id : Int
  done : Bool
  priority : Char
  due : Option Str
  title : Str
deriving DecidableEq, Repr

/-- One line written by `save_tasks` (without the terminating newline):
`id|done|priority|due|title` with `due` encoded as `-` when absent and the
title passed through `encode_field`. -/
def encodeLine (t : Task) : Str :=
  intRepr t.id ++ [SEP] ++ [if t.done then '1' else '0'] ++ [SEP] ++ [t.priority]
    ++ [SEP] ++ t.due.getD ['-'] ++ [SEP] ++ encode_field t.title

/-- Decoding of one line inside the `load_tasks` loop.  `some none` means the
line is silently skipped (blank, or fewer than five fields); `none` means
`std::stoi` throws on the id field and the process aborts. -/
def decodeLine (l : Str) : Option (Option Task) :=
  if trim l = [] then some none
  else
    match split SEP l with
    | p0 :: p1 :: p2 :: p3 :: p4 :: _ =>
      match stoi p0 with
      | none => none
      | some i =>
        some (some
          { id := i
            done := p1 = ['1']
            priority := p2.headD 'M'
            due := if p3 = ['-'] then none else some p3
            title := p4 })
    | _ => some none

/-- The `load_tasks` line loop over an already-split list of lines. -/
def loadLines : List Str → Option (List Task)
  | [] => some []
  | l :: ls =>
    match decodeLine l with
    | none => none
    | some none => loadLines ls
    | some (some t) => (loadLines ls).map (t :: ·)

/-- `load_tasks` on a file content (`std::getline` splits it into lines). -/
def load_tasks (content : Str) : Option (List Task) :=
  loadLines (split '\n' content)

/-- `save_tasks`: one encoded line plus newline per task, in sequence order. -/
def save_tasks (v : List Task) : Str :=
  v.foldr (fun t acc => encodeLine t ++ '\n' :: acc) []

/-- `next_id`: fold of `std::max` over the ids starting at 0, plus one. -/
def next_id (v : List Task) : Int :=
  (v.foldl (fun m t => max m t.id) 0) + 1

/-! ## The lister: comparator, stable sort, filter -/

/-- The absent-due sentinel `"9999-99-99"`. -/
def dueSentinel : Str := "9999-99-99".data

/-- `a.due.value_or("9999-99-99")`. -/
def dueOr (t : Task) : Str := t.due.getD dueSentinel

/-- `std::string operator<`: lexicographic comparison by character value. -/
def strLt : Str → Str → Bool
  | [], [] => false
  | [], _ :: _ => true
  | _ :: _, [] => false
  | a :: as, b :: bs => if a < b then true else if b < a then false else strLt as bs

/-- The tie-break applied by the comparator after the `sort_key` blocks,
regardless of key: due date with absent-as-sentinel, then priority weight,
then id ascending. -/
def taskTail (a b : Task) : Bool :=
  if dueOr a ≠ dueOr b then strLt (dueOr a) (dueOr b)
  else if prio_weight a.priority ≠ prio_weight b.priority then
    decide (prio_weight a.priority < prio_weight b.priority)
  else decide (a.id < b.id)

/-- The comparator passed to `std::stable_sort` in `list_cmd`, transcribed
from the lambda: completion bucket, then the requested key when its values
differ (each key block returns early only on strict inequality), then the
always-applied tie-break `taskTail`. -/
def taskLt (key : Str) (a b : Task) : Bool :=
  if a.done != b.done then !a.done
  else if key = "due".data then
    (if dueOr a ≠ dueOr b then strLt (dueOr a) (dueOr b) else taskTail a b)
  else if key = "priority".data then
    (if prio_weight a.priority ≠ prio_weight b.priority then
      decide (prio_weight a.priority < prio_weight b.priority)
    else taskTail a b)
  else if key = "id".data then
    (if a.id ≠ b.id then decide (a.id < b.id) else taskTail a b)
  else taskTail a b

/-- The non-strict order induced by the comparator: `a` may stay before `b`
exactly when the comparator does not order `b` strictly first. -/
def taskLe (key : Str) (a b : Task) : Bool := !taskLt key b a

/-- `std::stable_sort` with the `list_cmd` comparator, modelled by the stable
`List.mergeSort` on the induced non-strict order. -/
def sortTasks (key : Str) (v : List Task) : List Task :=
  v.mergeSort (taskLe key)

/-- The `ListFilter` enum. -/
inductive ListFilter
  | All
  | Pending
  | Done
deriving DecidableEq, Repr

/-- The display predicate of the print loop: `Pending` skips completed rows
and `Done` skips incomplete ones. -/
def keeps : ListFilter → Task → Bool
  | .All, _ => true
  | .Pending, t => !t.done
  | .Done, t => t.done

/-- The rows printed by `list_cmd` on a collection: stable sort, then filter. -/
def list_rows (f : ListFilter) (key : Str) (v : List Task) : List Task :=
  (sortTasks key v).filter (keeps f)

/-! ## Spec-side comparator

`specCmp` is written from the specification text (§4.3): precedence list
"incomplete before completed", then the requested key, then the fixed
due/weight/id tie-break, each level a lexicographic refinement.  It is
compared with the transcription `taskLt` in claim C1. -/

/-- Rank used by the spec's primary bucketing: incomplete (0) before completed (1). -/
def doneRank (t : Task) : Nat := if t.done then 1 else 0

/-- Lexicographic `Ordering`-valued comparison of strings by character value. -/
def strCmp : Str → Str → Ordering
  | [], [] => .eq
  | [], _ :: _ => .lt
  | _ :: _, [] => .gt
  | a :: as, b :: bs => (compare a b).then (strCmp as bs)

/-- The spec's step 2: the requested sort key, comparing due strings
(absent as sentinel), priority weights, or ids; an unrecognized key compares
nothing. -/
def keyCmp (key : Str) : Task → Task → Ordering :=
  if key = "due".data then Ordering.byKey dueOr strCmp
  else if key = "priority".data then
    Ordering.byKey (fun t => prio_weight t.priority) compare
  else if key = "id".data then Ordering.byKey Task.id compare
  else fun _ _ => .eq

/-- The full spec comparator: bucket by completion, then the requested key,
then due date, priority weight and id ascending. -/
def specCmp (key : Str) : Task → Task → Ordering :=
  compareLex (Ordering.byKey doneRank compare) <|
    compareLex (keyCmp key) <|
      compareLex (Ordering.byKey dueOr strCmp) <|
        compareLex (Ordering.byKey (fun t => prio_weight t.priority) compare)
          (Ordering.byKey Task.id compare)

/-! ## The command dispatcher -/

/-- `std::toupper` in the default locale. -/
def cppToUpper (c : Char) : Char :=
  if 'a' ≤ c ∧ c ≤ 'z' then Char.ofNat (c.toNat - 32) else c

/-- The first character of a C string: `'\0'` when empty (as `argv[i][0]`). -/
def firstChar (s : Str) : Char := s.headD (Char.ofNat 0)

/-- The argument scan of the `add` branch: `-p` consumes a value whose
uppercased first character must be H, M or L; `-d` consumes a value that must
pass date validation; any other token starting with `-` is an unknown flag;
everything else is a title word.  `none` models `return 1`. -/
def addScan : List Str → Char → Option Str → List Str →
    Option (Char × Option Str × List Str)
  | [], pr, due, parts => some (pr, due, parts)
  | a :: rest, pr, due, parts =>
    if a = "-p".data then
      match rest with
      | v :: rest2 =>
        let pr2 := cppToUpper (firstChar v)
        if pr2 = 'H' ∨ pr2 = 'M' ∨ pr2 = 'L' then addScan rest2 pr2 due parts
        else none
      | [] => none
    else if a = "-d".data then
      match rest with
      | v :: rest2 =>
        if is_valid_date v then addScan rest2 pr (some v) parts else none
      | [] => none
    else if a ≠ [] ∧ firstChar a = '-' then none
    else addScan rest pr due (parts ++ [a])

/-- Join title words with single spaces, as the `add` branch does. -/
def joinSpace : List Str → Str
  | [] => []
  | [w] => w
  | w :: ws => w ++ ' ' :: joinSpace ws

/-- The `add` command on argument list and file content. -/
def add_cmd (args : List Str) (file : Str) : Option (Nat × Str) :=
  if args = [] then some (1, file)
  else
    match addScan args 'M' none [] with
    | none => some (1, file)
    | some (pr, due, parts) =>
      if parts = [] then some (1, file)
      else
        match load_tasks file with
        | none => none
        | some v =>
          let t : Task :=
            { id := next_id v, done := false, priority := pr, due := due
              title := trim (joinSpace parts) }
          some (0, save_tasks (v ++ [t]))

/-- The argument scan of the `list` branch. -/
def listScan : List Str → ListFilter → Str → Option (ListFilter × Str)
  | [], f, k => some (f, k)
  | a :: rest, f, k =>
    if a = "--all".data then listScan rest .All k
    else if a = "--pending".data then listScan rest .Pending k
    else if a = "--done".data then listScan rest .Done k
    else if a.take 7 = "--sort=".data then listScan rest f (a.drop 7)
    else none

/-- The `list` command; it never writes the file.  The rows it would print
are `list_rows` of the loaded collection. -/
def list_cmd (args : List Str) (file : Str) : Option (Nat × Str) :=
  match listScan args .All "due".data with
  | none => some (1, file)
  | some _ =>
    match load_tasks file with
    | none => none
    | some _ => some (0, file)

/-- The mutation loop of the `done` branch: set the `done` flag of the first
task with the given id, or report failure when none matches. -/
def markDone (n : Int) : List Task → Option (List Task)
  | [] => none
  | t :: ts =>
    if t.id = n then some ({ t with done := true } :: ts)
    else (markDone n ts).map (t :: ·)

/-- The `done` command. -/
def done_cmd (args : List Str) (file : Str) : Option (Nat × Str) :=
  match args with
  | [] => some (1, file)
  | idArg :: _ =>
    if parse_int idArg < 0 then some (1, file)
    else
      match load_tasks file with
      | none => none
      | some v =>
        match markDone (parse_int idArg) v with
        | none => some (1, file)
        | some w => some (0, save_tasks w)

/-- The `rm` command: `std::remove_if` erases every task with the id; failure
when nothing matched. -/
def rm_cmd (args : List Str) (file : Str) : Option (Nat × Str) :=
  match args with
  | [] => some (1, file)
  | idArg :: _ =>
    if parse_int idArg < 0 then some (1, file)
    else
      match load_tasks file with
      | none => none
      | some v =>
        if v.all fun t => t.id ≠ parse_int idArg then some (1, file)
        else some (0, save_tasks (v.filter fun t => t.id ≠ parse_int idArg))

/-- The argument scan of the `clear` branch: `--all` sets the flag, `--done`
is the default behavior, anything else is an error. -/
def clearScan : List Str → Bool → Option Bool
  | [], b => some b
  | a :: rest, b =>
    if a = "--all".data then clearScan rest true
    else if a = "--done".data then clearScan rest b
    else none

/-- The `clear` command. -/
def clear_cmd (args : List Str) (file : Str) : Option (Nat × Str) :=
  match clearScan args false with
  | none => some (1, file)
  | some clearAll =>
    match load_tasks file with
    | none => none
    | some v =>
      if clearAll then some (0, save_tasks [])
      else some (0, save_tasks (v.filter fun t => !t.done))

/-- The `main` dispatch over `argv[1..]` and the data file content.  `none`
models an abort (uncaught exception); `some (code, file)` the exit code and
resulting file content. -/
def runMain (args : List Str) (file : Str) : Option (Nat × Str) :=
  match args with
  | [] => some (0, file)
  | cmd :: rest =>
    if cmd = "help".data ∨ cmd = "-h".data ∨ cmd = "--help".data then some (0, file)
    else if cmd = "add".data then add_cmd rest file
    else if cmd = "list".data then list_cmd rest file
    else if cmd = "done".data then done_cmd rest file
    else if cmd = "rm".data then rm_cmd rest file
    else if cmd = "clear".data then clear_cmd rest file
    else some (1, file)

/-! ## Lemmas about `split` -/

/-- One-step unfolding of `split` on a cons cell. -/
theorem split_cons (delim c : Char) (cs : Str) :
    split delim (c :: cs) =
      if c = delim then [] :: split delim cs else consField c (split delim cs) := rfl

/-- A nonempty delimiter-free string splits as a single field. -/
theorem split_eq_single {delim : Char} {xs : Str} (hne : xs ≠ []) (h : delim ∉ xs) :
    split delim xs = [xs] := by
  induction xs with
  | nil => cases hne rfl
  | cons c cs ih =>
    have hc : ¬c = delim := fun e => h (e ▸ List.mem_cons_self c cs)
    rw [split_cons, if_neg hc]
    cases cs with
    | nil => rfl
    | cons d ds =>
      rw [ih (by simp) fun e => h (List.mem_cons_of_mem c e)]
      rfl

/-- Splitting a string that starts with a delimiter-free field followed by a
delimiter produces that field and then the split of the rest. -/
theorem split_append {delim : Char} {rest : Str} {xs : Str} (h : delim ∉ xs) :
    split delim (xs ++ delim :: rest) = xs :: split delim rest := by
  induction xs with
  | nil =>
    rw [List.nil_append, split_cons, if_pos rfl]
  | cons c cs ih =>
    have hc : ¬c = delim := fun e => h (e ▸ List.mem_cons_self c cs)
    rw [List.cons_append, split_cons, if_neg hc,
      ih fun e => h (List.mem_cons_of_mem c e)]
    rfl

/-! ## Lemmas about decimal representations and `stoi` -/

/-- Digit characters are digits with the expected code point. -/
theorem digitChar_spec {n : Nat} (h : n < 10) :
    (digitChar n).isDigit = true ∧ (digitChar n).toNat = 48 + n := by
  interval_cases n <;> exact ⟨rfl, rfl⟩

/-- Every character produced by the digit expansion is a decimal digit. -/
theorem natRevDigitsAux_digits (fuel : Nat) :
    ∀ n, ∀ c ∈ natRevDigitsAux fuel n, c.isDigit := by
  induction fuel with
  | zero =>
    intro n c hc
    cases n <;> cases hc
  | succ f ih =>
    intro n c hc
    cases n with
    | zero => cases hc
    | succ m =>
      rcases List.mem_cons.1 hc with h | h
      · exact h ▸ (digitChar_spec (Nat.mod_lt _ (by omega))).1
      · exact ih ((m + 1) / 10) c h

/-- Every character of `natRevDigits` is a decimal digit. -/
theorem natRevDigits_digits (n : Nat) : ∀ c ∈ natRevDigits n, c.isDigit :=
  natRevDigitsAux_digits n n

/-- Every character of `natRepr` is a decimal digit. -/
theorem natRepr_digits (n : Nat) : ∀ c ∈ natRepr n, c.isDigit := by
  unfold natRepr
  split
  · simp
  · intro c hc
    exact natRevDigits_digits n c (List.mem_reverse.1 hc)

/-- `natRepr` is never empty. -/
theorem natRepr_ne_nil (n : Nat) : natRepr n ≠ [] := by
  unfold natRepr
  split
  · simp
  · rename_i h
    match n, h with
    | m + 1, _ =>
      show (natRevDigitsAux (m + 1) (m + 1)).reverse ≠ []
      rw [show natRevDigitsAux (m + 1) (m + 1) =
        digitChar ((m + 1) % 10) :: natRevDigitsAux m ((m + 1) / 10) from rfl]
      simp

/-- Appending one digit multiplies the value by ten and adds the digit. -/
theorem digitsVal_append (xs : Str) (c : Char) :
    digitsVal (xs ++ [c]) = 10 * digitsVal xs + (c.toNat - 48) := by
  simp [digitsVal, List.foldl_append]
  ring

/-- The reversed digit expansion evaluates back to the number, with enough
fuel. -/
theorem digitsVal_natRevDigitsAux (fuel : Nat) :
    ∀ n, n ≤ fuel → digitsVal (natRevDigitsAux fuel n).reverse = n := by
  induction fuel with
  | zero =>
    intro n hn
    interval_cases n
    simp [natRevDigitsAux, digitsVal]
  | succ f ih =>
    intro n hn
    cases n with
    | zero => simp [natRevDigitsAux, digitsVal]
    | succ m =>
      show digitsVal (digitChar ((m + 1) % 10) :: natRevDigitsAux f ((m + 1) / 10)).reverse
        = m + 1
      rw [List.reverse_cons, digitsVal_append,
        ih ((m + 1) / 10) (by omega),
        (digitChar_spec (Nat.mod_lt _ (by omega))).2]
      omega

/-- The reversed digit expansion evaluates back to the number. -/
theorem digitsVal_natRevDigits (n : Nat) : digitsVal (natRevDigits n).reverse = n :=
  digitsVal_natRevDigitsAux n n le_rfl

/-- `digitsVal` recovers the value of `natRepr`. -/
theorem digitsVal_natRepr (n : Nat) : digitsVal (natRepr n) = n := by
  unfold natRepr
  split
  · simp_all [digitsVal]
  · exact digitsVal_natRevDigits n

/-- A digit character is not C++ whitespace. -/
theorem isDigit_not_cppSpace {c : Char} (h : c.isDigit) : isCppSpace c = false := by
  unfold isCppSpace
  simp only [Bool.or_eq_false_iff, decide_eq_false_iff_not]
  refine ⟨⟨⟨⟨⟨?_, ?_⟩, ?_⟩, ?_⟩, ?_⟩, ?_⟩ <;>
    · rintro rfl
      exact absurd h (by decide)

/-- Digits are untouched by the whitespace skip of `stoi`. -/
theorem dropWhile_isCppSpace_of_digit {s : Str} (h : ∀ c ∈ s, c.isDigit) :
    s.dropWhile isCppSpace = s := by
  cases s with
  | nil => rfl
  | cons c cs =>
    rw [List.dropWhile_cons, if_neg]
    rw [isDigit_not_cppSpace (h c (List.mem_cons_self c cs))]
    simp

/-- `stoi` on a nonempty all-digit string returns its value when in range. -/
theorem stoi_digits {ds : Str} (hne : ds ≠ []) (hd : ∀ c ∈ ds, c.isDigit)
    (hmax : (digitsVal ds : Int) ≤ INT_MAX) :
    stoi ds = some (digitsVal ds : Int) := by
  obtain ⟨c, cs, rfl⟩ : ∃ c cs, ds = c :: cs := by
    rcases ds with _ | ⟨c, cs⟩
    · cases hne rfl
    · exact ⟨c, cs, rfl⟩
  have hcd : c.isDigit := hd c (List.mem_cons_self c cs)
  have hcm : ¬(c = '-' ∨ c = '+') := by
    rintro (rfl | rfl) <;> exact absurd hcd (by decide)
  have hco : ¬(c = '-') := fun e => hcm (Or.inl e)
  unfold stoi
  rw [dropWhile_isCppSpace_of_digit hd]
  simp only [List.headD_cons]
  rw [if_neg hcm, List.takeWhile_eq_self_iff.2 hd, if_neg hne, if_neg hco]
  rw [if_neg]
  intro h
  rcases h with h | h
  · have h0 : (0 : Int) ≤ (digitsVal (c :: cs) : Int) := Int.natCast_nonneg _
    unfold INT_MIN at h
    omega
  · omega

/-- `stoi` on a minus sign followed by digits returns the negated value when
in range. -/
theorem stoi_neg_digits {ds : Str} (hne : ds ≠ []) (hd : ∀ c ∈ ds, c.isDigit)
    (hmin : INT_MIN ≤ -(digitsVal ds : Int)) :
    stoi ('-' :: ds) = some (-(digitsVal ds : Int)) := by
  unfold stoi
  have hdrop : ('-' :: ds).dropWhile isCppSpace = '-' :: ds := by
    rw [List.dropWhile_cons, if_neg]
    simp [isCppSpace]
  rw [hdrop]
  simp only [List.headD_cons, List.tail_cons, true_or, if_true]
  rw [List.takeWhile_eq_self_iff.2 hd, if_neg hne]
  rw [if_neg]
  intro h
  rcases h with h | h
  · omega
  · have h0 : (0 : Int) ≤ (digitsVal ds : Int) := Int.natCast_nonneg _
    unfold INT_MAX at h
    omega

/-- `stoi` recovers any in-range `int` from its decimal representation. -/
theorem stoi_intRepr {i : Int} (hmin : INT_MIN ≤ i) (hmax : i ≤ INT_MAX) :
    stoi (intRepr i) = some i := by
  unfold intRepr
  split
  · rename_i hneg
    have habs : (i.natAbs : Int) = -i := by omega
    rw [stoi_neg_digits (natRepr_ne_nil _) (natRepr_digits _)
      (by rw [digitsVal_natRepr, habs]; omega)]
    rw [digitsVal_natRepr, habs]
    simp
  · rename_i hpos
    have htn : ((i.toNat : Nat) : Int) = i := by omega
    rw [stoi_digits (natRepr_ne_nil _) (natRepr_digits _)
      (by rw [digitsVal_natRepr, htn]; omega)]
    rw [digitsVal_natRepr, htn]

/-! ## Lemmas about `trim` and `encode_field` -/

/-- An element not satisfying the predicate survives `dropWhile`. -/
theorem mem_dropWhile_of_not {p : Char → Bool} {c : Char} (hc : p c = false) :
    ∀ {l : Str}, c ∈ l → c ∈ l.dropWhile p := by
  intro l hl
  induction l with
  | nil => cases hl
  | cons a as ih =>
    rw [List.dropWhile_cons]
    split
    · rcases List.mem_cons.1 hl with h | h
      · rename_i hp
        rw [h] at hc
        rw [hc] at hp
        cases hp
      · exact ih h
    · exact hl

/-- A string containing a non-whitespace character does not trim to empty. -/
theorem trim_ne_nil {s : Str} {c : Char} (hc : isTrimWS c = false) (hmem : c ∈ s) :
    trim s ≠ [] := by
  intro h
  unfold trim at h
  rw [List.reverse_eq_nil_iff] at h
  have hall := List.dropWhile_eq_nil_iff.1 h
  have h1 : c ∈ (s.dropWhile isTrimWS).reverse :=
    List.mem_reverse.2 (mem_dropWhile_of_not hc hmem)
  have := hall c h1
  rw [hc] at this
  cases this

/-- A field free of the delimiter and of newline characters is unchanged by
`encode_field`. -/
theorem encode_field_eq_self {s : Str} (h1 : SEP ∉ s) (h2 : '\n' ∉ s) (h3 : '\r' ∉ s) :
    encode_field s = s := by
  unfold encode_field
  have hm : s.map (fun c => if c = SEP then '/' else c) = s := by
    rw [List.map_congr_left (g := id), List.map_id]
    intro a ha
    simp only [id]
    rw [if_neg]
    intro e
    exact h1 (e ▸ ha)
  rw [hm]
  have hinner : (s.filter fun c => c != '\n') = s := by
    refine List.filter_eq_self.2 fun a ha => ?_
    simp only [bne_iff_ne, ne_eq]
    intro e
    exact h2 (e ▸ ha)
  rw [hinner]
  refine List.filter_eq_self.2 fun a ha => ?_
  simp only [bne_iff_ne, ne_eq]
  intro e
  exact h3 (e ▸ ha)

/-- `encode_field` never produces the delimiter. -/
theorem sep_not_mem_encode_field (s : Str) : SEP ∉ encode_field s := by
  intro h
  unfold encode_field at h
  have h1 := List.mem_of_mem_filter (List.mem_of_mem_filter h)
  rcases List.mem_map.1 h1 with ⟨a, _, ha⟩
  by_cases e : a = SEP
  · rw [if_pos e] at ha
    cases ha
  · rw [if_neg e] at ha
    exact e ha

/-! ## Round trip of the record codec -/

/-- Tasks that the storage format can represent faithfully: a nonempty title
free of the delimiter and of newline characters, a priority that does not
collide with the line structure, a due field (when present) that is neither
the absent sentinel nor contains structural characters, and an id that fits
in `int`.  Every task created through the CLI (`add` validates priority and
due date, titles are trimmed single-line words) satisfies this. -/
def storable (t : Task) : Prop :=
  t.title ≠ [] ∧ SEP ∉ t.title ∧ '\n' ∉ t.title ∧ '\r' ∉ t.title ∧
    t.priority ≠ SEP ∧ t.priority ≠ '\n' ∧
    (match t.due with
     | none => True
     | some d => d ≠ ['-'] ∧ SEP ∉ d ∧ '\n' ∉ d) ∧
    INT_MIN ≤ t.id ∧ t.id ≤ INT_MAX

/-- Characters of `intRepr` are digits or the minus sign. -/
theorem mem_intRepr {i : Int} {c : Char} (h : c ∈ intRepr i) : c.isDigit ∨ c = '-' := by
  unfold intRepr at h
  split at h
  · rcases List.mem_cons.1 h with h | h
    · exact Or.inr h
    · exact Or.inl (natRepr_digits _ c h)
  · exact Or.inl (natRepr_digits _ c h)

/-- The delimiter does not occur in `intRepr`. -/
theorem sep_not_mem_intRepr (i : Int) : SEP ∉ intRepr i := by
  intro h
  rcases mem_intRepr h with h | h
  · exact absurd h (by decide)
  · exact absurd h (by decide)

/-- Newline does not occur in `intRepr`. -/
theorem newline_not_mem_intRepr (i : Int) : '\n' ∉ intRepr i := by
  intro h
  rcases mem_intRepr h with h | h
  · exact absurd h (by decide)
  · exact absurd h (by decide)

/-- Newline does not survive `encode_field`. -/
theorem newline_not_mem_encode_field (s : Str) : '\n' ∉ encode_field s := by
  intro h
  unfold encode_field at h
  have := List.of_mem_filter (List.mem_of_mem_filter h)
  simp at this

/-- The encoded line, written with its delimiters exposed. -/
theorem encodeLine_eq (t : Task) :
    encodeLine t =
      intRepr t.id ++ SEP :: ([if t.done then '1' else '0'] ++ SEP :: ([t.priority]
        ++ SEP :: (t.due.getD ['-'] ++ SEP :: encode_field t.title))) := by
  unfold encodeLine
  simp [List.append_assoc]

/-- The encoded line of a task splits into exactly its five fields. -/
theorem split_encodeLine {t : Task} (hp : t.priority ≠ SEP)
    (hdue : ∀ d, t.due = some d → SEP ∉ d) (hti : encode_field t.title ≠ []) :
    split SEP (encodeLine t) =
      [intRepr t.id, [if t.done then '1' else '0'], [t.priority],
        t.due.getD ['-'], encode_field t.title] := by
  have h1 : SEP ∉ intRepr t.id := sep_not_mem_intRepr t.id
  have h2 : SEP ∉ ([if t.done then '1' else '0'] : Str) := by
    cases t.done <;> decide
  have h3 : SEP ∉ ([t.priority] : Str) := by
    intro h
    rcases List.mem_cons.1 h with h | h
    · exact hp h.symm
    · cases h
  have h4 : SEP ∉ t.due.getD ['-'] := by
    cases hd : t.due with
    | none => decide
    | some d => exact hdue d hd
  rw [encodeLine_eq, split_append h1, split_append h2, split_append h3, split_append h4,
    split_eq_single hti (sep_not_mem_encode_field t.title)]

/-- Decoding the encoded line of a storable task gives back the task. -/
theorem decodeLine_encodeLine {t : Task} (h : storable t) :
    decodeLine (encodeLine t) = some (some t) := by
  obtain ⟨id, done, priority, due, title⟩ := t
  obtain ⟨hti, hsep, hnl, hcr, hpr, hpn, hdue, hmin, hmax⟩ := h
  simp only at hti hsep hnl hcr hpr hpn hdue hmin hmax
  have hef : encode_field title = title := encode_field_eq_self hsep hnl hcr
  have hdue2 : ∀ d, (due : Option Str) = some d → SEP ∉ d := by
    intro d hd
    rw [hd] at hdue
    exact hdue.2.1
  have hsplit := split_encodeLine (t := ⟨id, done, priority, due, title⟩) hpr hdue2
    (by simpa only [hef] using hti)
  have hmem : SEP ∈ encodeLine ⟨id, done, priority, due, title⟩ := by
    rw [encodeLine_eq]
    simp
  unfold decodeLine
  rw [if_neg (trim_ne_nil (by decide) hmem)]
  simp only at hsplit
  rw [hsplit]
  simp only
  rw [stoi_intRepr hmin hmax]
  have hdone2 : (decide (([if done then '1' else '0'] : Str) = ['1'])) = done := by
    cases done <;> rfl
  have hdue3 :
      (if (due.getD ['-'] : Str) = ['-'] then (none : Option Str)
        else some (due.getD ['-'])) = due := by
    cases due with
    | none => simp
    | some d =>
      have hd1 : d ≠ ['-'] := hdue.1
      simp [hd1]
  simp only [hdone2, hdue3, hef, List.headD_cons]

/-- The encoded line of a storable task contains no newline. -/
theorem newline_not_mem_encodeLine2 {t : Task} (hpn : t.priority ≠ '\n')
    (hdue : ∀ d, t.due = some d → '\n' ∉ d) : '\n' ∉ encodeLine t := by
  obtain ⟨id, done, priority, due, title⟩ := t
  simp only at hpn hdue
  intro hmem
  rw [encodeLine_eq] at hmem
  simp only [List.mem_append, List.mem_cons, List.mem_singleton, List.not_mem_nil,
    or_false] at hmem
  rcases hmem with h | h | h | h | h | h | h | h | h
  · exact newline_not_mem_intRepr id h
  · exact absurd h (by decide)
  · cases done <;> simp at h
  · exact absurd h (by decide)
  · exact hpn h.symm
  · exact absurd h (by decide)
  · cases due with
    | none => exact absurd h (by decide)
    | some d => exact hdue d rfl h
  · exact absurd h (by decide)
  · exact newline_not_mem_encode_field title h

/-- The encoded line of a storable task contains no newline. -/
theorem newline_not_mem_encodeLine {t : Task} (h : storable t) :
    '\n' ∉ encodeLine t := by
  obtain ⟨hti, hsep, hnl, hcr, hpr, hpn, hdue, hmin, hmax⟩ := h
  refine newline_not_mem_encodeLine2 hpn ?_
  intro d hd
  rw [hd] at hdue
  exact hdue.2.2

/-- Saving a list of storable tasks and loading the file back is the
identity. -/
theorem load_save {v : List Task} (h : ∀ t ∈ v, storable t) :
    load_tasks (save_tasks v) = some v := by
  induction v with
  | nil => rfl
  | cons t ts ih =>
    have hst := h t (List.mem_cons_self t ts)
    have hsave : save_tasks (t :: ts) = encodeLine t ++ '\n' :: save_tasks ts := rfl
    unfold load_tasks
    rw [hsave, split_append (newline_not_mem_encodeLine hst)]
    show loadLines (encodeLine t :: split '\n' (save_tasks ts)) = some (t :: ts)
    unfold loadLines
    rw [decodeLine_encodeLine hst]
    have := ih fun u hu => h u (List.mem_cons_of_mem t hu)
    unfold load_tasks at this
    rw [this]
    rfl

/-! ## Order theory of the comparators -/

/-- `then` after `eq` yields the second comparison. -/
theorem eq_then (o : Ordering) : Ordering.eq.then o = o := rfl

/-- `then` after `lt` stays `lt`. -/
theorem lt_then (o : Ordering) : Ordering.lt.then o = Ordering.lt := rfl

/-- `then` after `gt` stays `gt`. -/
theorem gt_then (o : Ordering) : Ordering.gt.then o = Ordering.gt := rfl

/-- `strCmp` is antisymmetric under `swap`. -/
theorem strCmp_symm (a b : Str) : (strCmp a b).swap = strCmp b a := by
  induction a generalizing b with
  | nil => cases b <;> rfl
  | cons c cs ih =>
    cases b with
    | nil => rfl
    | cons d ds =>
      show ((compare c d).then (strCmp cs ds)).swap = (compare d c).then (strCmp ds cs)
      rw [Ordering.swap_then, ih ds, Batteries.OrientedCmp.symm c d]

instance : Batteries.OrientedCmp strCmp := ⟨strCmp_symm⟩

/-- Character comparison agrees with equality. -/
theorem charCmp_eq_iff (c d : Char) : compare c d = Ordering.eq ↔ c = d :=
  Batteries.BEqCmp.cmp_iff_eq

/-- Equal-comparing characters compare identically against any third. -/
theorem charCmp_congr_left {x y : Char} (h : compare x y = Ordering.eq) (z : Char) :
    compare x z = compare y z :=
  Batteries.TransCmp.cmp_congr_left h

/-- `strCmp` compares equal exactly on equal strings. -/
theorem strCmp_eq_eq {a b : Str} : strCmp a b = .eq ↔ a = b := by
  induction a generalizing b with
  | nil => cases b <;> simp [strCmp]
  | cons c cs ih =>
    cases b with
    | nil => simp [strCmp]
    | cons d ds =>
      show (compare c d).then (strCmp cs ds) = .eq ↔ _
      rw [Ordering.then_eq_eq]
      rw [charCmp_eq_iff, ih]
      simp

/-- `strCmp` is transitive on its induced non-strict order. -/
theorem strCmp_le_trans :
    ∀ (a b c : Str), strCmp a b ≠ .gt → strCmp b c ≠ .gt → strCmp a c ≠ .gt := by
  intro a
  induction a with
  | nil =>
    intro b c _ _
    cases c <;> simp [strCmp]
  | cons x xs ih =>
    intro b c h1 h2
    cases b with
    | nil => exact absurd rfl h1
    | cons y ys =>
      cases c with
      | nil => exact absurd rfl h2
      | cons z zs =>
        have h1x : (compare x y).then (strCmp xs ys) ≠ .gt := h1
        have h2x : (compare y z).then (strCmp ys zs) ≠ .gt := h2
        show (compare x z).then (strCmp xs zs) ≠ .gt
        rw [Ne, Ordering.then_eq_gt, not_or, not_and] at h1x h2x ⊢
        refine ⟨Batteries.TransCmp.le_trans h1x.1 h2x.1, ?_⟩
        intro hac
        match hxy : compare x y with
        | .gt => exact absurd hxy h1x.1
        | .lt =>
          have := Batteries.TransCmp.lt_le_trans hxy h2x.1
          rw [hac] at this
          cases this
        | .eq =>
          have hcongr := charCmp_congr_left hxy z
          have hyz : compare y z = .eq := hcongr ▸ hac
          exact ih ys zs (h1x.2 hxy) (h2x.2 hyz)

instance : Batteries.TransCmp strCmp where
  le_trans h1 h2 := strCmp_le_trans _ _ _ h1 h2

/-- `strLt` is the `lt` test of `strCmp`. -/
theorem strLt_eq_decide (a b : Str) : strLt a b = decide (strCmp a b = .lt) := by
  induction a generalizing b with
  | nil => cases b <;> rfl
  | cons c cs ih =>
    cases b with
    | nil => rfl
    | cons d ds =>
      show (if c < d then true else if d < c then false else strLt cs ds) =
        decide ((compare c d).then (strCmp cs ds) = .lt)
      match hcd : compare c d with
      | .lt =>
        have hlt : c < d := Batteries.LTCmp.cmp_iff_lt.1 hcd
        rw [if_pos hlt, lt_then]
        rfl
      | .gt =>
        have hgt : d < c := Batteries.LTCmp.cmp_iff_gt.1 hcd
        rw [if_neg (lt_asymm hgt), if_pos hgt, gt_then]
        rfl
      | .eq =>
        have heq : c = d := Batteries.BEqCmp.cmp_iff_eq.1 hcd
        rw [if_neg (heq ▸ lt_irrefl c), if_neg (heq ▸ lt_irrefl c), eq_then, ih ds]

/-- The constant `eq` comparator is lawful. -/
instance : Batteries.TransCmp (fun (_ _ : Task) => Ordering.eq) where
  symm _ _ := rfl
  le_trans h1 _ := h1

instance (key : Str) : Batteries.TransCmp (keyCmp key) := by
  unfold keyCmp
  split
  · exact inferInstance
  · split
    · exact inferInstance
    · split
      · exact inferInstance
      · exact inferInstance

instance (key : Str) : Batteries.TransCmp (specCmp key) := by
  unfold specCmp
  exact inferInstance

/-- One lexicographic level of the transcription against one `then` level of
the spec comparator, over a lawfully compared type. -/
theorem level_corr {α : Type} [LinearOrder α] [Ord α] [BEq α] [LawfulBEq α]
    [Batteries.LTCmp (compare : α → α → Ordering)]
    [Batteries.BEqCmp (compare : α → α → Ordering)]
    (x y : α) (r : Bool) (o : Ordering) (hro : r = decide (o = .lt)) :
    (if x ≠ y then decide (x < y) else r) = decide ((compare x y).then o = .lt) := by
  match hxy : compare x y with
  | .lt =>
    have hlt : x < y := Batteries.LTCmp.cmp_iff_lt.1 hxy
    rw [if_pos (ne_of_lt hlt), lt_then]
    simp [hlt]
  | .gt =>
    have hgt : y < x := Batteries.LTCmp.cmp_iff_gt.1 hxy
    rw [if_pos (ne_of_gt hgt), gt_then]
    simp [not_lt_of_gt hgt]
  | .eq =>
    have heq : x = y := Batteries.BEqCmp.cmp_iff_eq.1 hxy
    rw [if_neg (by simpa using heq), eq_then, hro]

/-- One string level of the transcription against one `then` level of the
spec comparator. -/
theorem level_corr_str (x y : Str) (r : Bool) (o : Ordering)
    (hro : r = decide (o = .lt)) :
    (if x ≠ y then strLt x y else r) = decide ((strCmp x y).then o = .lt) := by
  match hxy : strCmp x y with
  | .lt =>
    have hne : x ≠ y := fun e => by
      rw [strCmp_eq_eq.2 e] at hxy
      cases hxy
    rw [if_pos hne, lt_then, strLt_eq_decide, hxy]
  | .gt =>
    have hne : x ≠ y := fun e => by
      rw [strCmp_eq_eq.2 e] at hxy
      cases hxy
    rw [if_pos hne, gt_then, strLt_eq_decide, hxy]
  | .eq =>
    have heq : x = y := strCmp_eq_eq.1 hxy
    rw [if_neg (by simpa using heq), eq_then, hro]

/-- The always-applied tie-break of the transcription matches the spec
comparator's third, fourth and fifth levels. -/
theorem tail_corr (a b : Task) :
    taskTail a b =
    decide ((strCmp (dueOr a) (dueOr b)).then
      ((compare (prio_weight a.priority) (prio_weight b.priority)).then
        (compare a.id b.id)) = .lt) := by
  unfold taskTail
  refine level_corr_str _ _ _ _ ?_
  refine level_corr _ _ _ _ ?_
  rw [decide_eq_decide]
  exact (Batteries.LTCmp.cmp_iff_lt).symm

/-- The `sort_key` blocks of the transcription match the spec comparator's
second level followed by the fixed tie-break. -/
theorem key_level_corr (key : Str) (a b : Task) :
    (if key = "due".data then
       (if dueOr a ≠ dueOr b then strLt (dueOr a) (dueOr b) else taskTail a b)
     else if key = "priority".data then
       (if prio_weight a.priority ≠ prio_weight b.priority then
         decide (prio_weight a.priority < prio_weight b.priority)
       else taskTail a b)
     else if key = "id".data then
       (if a.id ≠ b.id then decide (a.id < b.id) else taskTail a b)
     else taskTail a b) =
    decide ((keyCmp key a b).then
      ((strCmp (dueOr a) (dueOr b)).then
        ((compare (prio_weight a.priority) (prio_weight b.priority)).then
          (compare a.id b.id))) = .lt) := by
  unfold keyCmp
  by_cases h1 : key = "due".data
  · rw [if_pos h1, if_pos h1]
    exact level_corr_str _ _ _ _ (tail_corr a b)
  · rw [if_neg h1, if_neg h1]
    by_cases h2 : key = "priority".data
    · rw [if_pos h2, if_pos h2]
      exact level_corr _ _ _ _ (tail_corr a b)
    · rw [if_neg h2, if_neg h2]
      by_cases h3 : key = "id".data
      · rw [if_pos h3, if_pos h3]
        exact level_corr _ _ _ _ (tail_corr a b)
      · rw [if_neg h3, if_neg h3, eq_then]
        exact tail_corr a b

/-- The completion bucket of the transcription against the spec comparator's
first level. -/
theorem done_level_corr (x y : Bool) (r : Bool) (o : Ordering)
    (hro : r = decide (o = .lt)) :
    (if x != y then !x else r) =
      decide ((compare (if x then (1 : Nat) else 0) (if y then 1 else 0)).then o
        = .lt) := by
  cases x <;> cases y
  · show r = decide ((compare (0 : Nat) 0).then o = .lt)
    rw [show compare (0 : Nat) 0 = Ordering.eq from by decide, eq_then]
    exact hro
  · show true = decide ((compare (0 : Nat) 1).then o = .lt)
    rw [show compare (0 : Nat) 1 = Ordering.lt from by decide, lt_then]
    rfl
  · show false = decide ((compare (1 : Nat) 0).then o = .lt)
    rw [show compare (1 : Nat) 0 = Ordering.gt from by decide, gt_then]
    rfl
  · show r = decide ((compare (1 : Nat) 1).then o = .lt)
    rw [show compare (1 : Nat) 1 = Ordering.eq from by decide, eq_then]
    exact hro

/-- The transcription of the C++ comparator computes exactly the strict part
of the comparator described by the specification. -/
theorem taskLt_eq_specCmp (key : Str) (a b : Task) :
    taskLt key a b = decide (specCmp key a b = .lt) :=
  done_level_corr a.done b.done _ _ (key_level_corr key a b)

/-- The induced non-strict order is the non-`gt` part of the spec
comparator. -/
theorem taskLe_eq (key : Str) (a b : Task) :
    taskLe key a b = decide (specCmp key a b ≠ .gt) := by
  unfold taskLe
  rw [taskLt_eq_specCmp]
  calc (!decide (specCmp key b a = .lt))
      = decide (¬specCmp key b a = .lt) := decide_not.symm
    _ = decide (specCmp key a b ≠ .gt) :=
        decide_eq_decide.2 Batteries.OrientedCmp.cmp_ne_gt.symm

/-- Totality of the induced non-strict order. -/
theorem taskLe_total (key : Str) (a b : Task) :
    (taskLe key a b || taskLe key b a) = true := by
  rw [taskLe_eq, taskLe_eq]
  by_cases h : specCmp key a b = .gt
  · have h2 : specCmp key b a = .lt := Batteries.OrientedCmp.cmp_eq_gt.1 h
    have h3 : specCmp key b a ≠ .gt := by
      rw [h2]
      intro hc
      cases hc
    simp [h3]
  · simp [h]

/-- Transitivity of the induced non-strict order. -/
theorem taskLe_trans (key : Str) (a b c : Task) :
    taskLe key a b = true → taskLe key b c = true → taskLe key a c = true := by
  rw [taskLe_eq, taskLe_eq, taskLe_eq]
  simp only [decide_eq_true_eq]
  exact Batteries.TransCmp.le_trans

/-! ## Characterization of the tolerant load path -/

/-- Lines skipped silently by `load_tasks`: blank after trimming, or fewer
than five delimiter-separated fields. -/
def skipLine (l : Str) : Bool :=
  decide (trim l = []) || decide ((split SEP l).length < 5)

/-- The task decoded from a line, when the line is neither skipped nor
aborting. -/
def lineVal (l : Str) : Option Task := (decodeLine l).getD none

/-- Skipped lines decode to nothing, silently. -/
theorem decodeLine_of_skip {l : Str} (h : skipLine l = true) :
    decodeLine l = some none := by
  unfold skipLine at h
  have h2 : decide (trim l = []) = true ∨ decide ((split SEP l).length < 5) = true := by
    simpa using h
  rcases h2 with h | h
  · unfold decodeLine
    rw [if_pos (of_decide_eq_true h)]
  · have hlen := of_decide_eq_true h
    unfold decodeLine
    by_cases ht : trim l = []
    · rw [if_pos ht]
    · rw [if_neg ht]
      rcases hsp : split SEP l with _ | ⟨p0, _ | ⟨p1, _ | ⟨p2, _ | ⟨p3, _ | ⟨p4, rest⟩⟩⟩⟩⟩
      · rfl
      · rfl
      · rfl
      · rfl
      · rfl
      · rw [hsp] at hlen
        simp at hlen
        omega

/-- Lines that are not skipped have at least five fields and decode through
`stoi` on the first field. -/
theorem decodeLine_of_not_skip {l : Str} (h : skipLine l = false) :
    ∃ p0 p1 p2 p3 p4 rest, split SEP l = p0 :: p1 :: p2 :: p3 :: p4 :: rest ∧
      decodeLine l = (stoi p0).map fun i =>
        some { id := i, done := p1 = ['1'], priority := p2.headD 'M',
               due := if p3 = ['-'] then none else some p3, title := p4 } := by
  unfold skipLine at h
  rw [Bool.or_eq_false_iff, decide_eq_false_iff_not, decide_eq_false_iff_not] at h
  obtain ⟨ht, hlen⟩ := h
  rcases hsp : split SEP l with _ | ⟨p0, _ | ⟨p1, _ | ⟨p2, _ | ⟨p3, _ | ⟨p4, rest⟩⟩⟩⟩⟩ <;>
    rw [hsp] at hlen <;> simp at hlen
  refine ⟨p0, p1, p2, p3, p4, rest, rfl, ?_⟩
  unfold decodeLine
  rw [if_neg ht, hsp]
  show (match stoi p0 with
    | none => none
    | some i =>
      some (some
        ({ id := i
           done := p1 = ['1']
           priority := p2.headD 'M'
           due := if p3 = ['-'] then none else some p3
           title := p4 } : Task))) = _
  cases stoi p0 <;> rfl

/-- `loadLines` succeeds exactly when no line aborts, and then returns the
decoded tasks of the surviving lines in order. -/
theorem loadLines_eq_some_iff {ls : List Str} {ts : List Task} :
    loadLines ls = some ts ↔
      (∀ l ∈ ls, decodeLine l ≠ none) ∧ ts = ls.filterMap lineVal := by
  induction ls generalizing ts with
  | nil => simp [loadLines, eq_comm]
  | cons l ls ih =>
    cases hdl : decodeLine l with
    | none =>
      constructor
      · intro h
        unfold loadLines at h
        rw [hdl] at h
        cases h
      · rintro ⟨hall, -⟩
        exact absurd hdl (hall l (List.mem_cons_self l ls))
    | some o =>
      have hne : decodeLine l ≠ none := by
        rw [hdl]
        exact Option.some_ne_none o
      cases o with
      | none =>
        have hlv : lineVal l = none := by
          unfold lineVal
          rw [hdl]
          rfl
        have hstep : loadLines (l :: ls) = loadLines ls := by
          simp only [loadLines, hdl]
        rw [hstep, ih, List.filterMap_cons_none hlv]
        constructor
        · rintro ⟨hall, hts⟩
          exact ⟨fun x hx => (List.mem_cons.1 hx).elim (fun e => e ▸ hne) (hall x), hts⟩
        · rintro ⟨hall, hts⟩
          exact ⟨fun x hx => hall x (List.mem_cons_of_mem l hx), hts⟩
      | some t =>
        have hlv : lineVal l = some t := by
          unfold lineVal
          rw [hdl]
          rfl
        have hstep : loadLines (l :: ls) = (loadLines ls).map (t :: ·) := by
          simp only [loadLines, hdl]
        rw [hstep, List.filterMap_cons_some hlv]
        cases hll : loadLines ls with
        | none =>
          constructor
          · intro h
            cases h
          · rintro ⟨hall, hts⟩
            have : loadLines ls = some (List.filterMap lineVal ls) :=
              ih.2 ⟨fun x hx => hall x (List.mem_cons_of_mem l hx), rfl⟩
            rw [hll] at this
            cases this
        | some w =>
          obtain ⟨hall, hw⟩ := ih.1 hll
          constructor
          · intro h
            rw [Option.map_some'] at h
            injection h with h
            refine ⟨fun x hx => (List.mem_cons.1 hx).elim (fun e => e ▸ hne) (hall x), ?_⟩
            rw [← h, hw]
          · rintro ⟨-, hts⟩
            rw [Option.map_some', hts, hw]

/-- `loadLines` aborts exactly when some line aborts. -/
theorem loadLines_eq_none_iff {ls : List Str} :
    loadLines ls = none ↔ ∃ l ∈ ls, decodeLine l = none := by
  induction ls with
  | nil => simp [loadLines]
  | cons l ls ih =>
    cases hdl : decodeLine l with
    | none =>
      have : loadLines (l :: ls) = none := by
        simp only [loadLines, hdl]
      simp only [this, true_iff]
      exact ⟨l, List.mem_cons_self l ls, hdl⟩
    | some o =>
      have hne : ¬(decodeLine l = none) := by
        rw [hdl]
        exact Option.some_ne_none o
      cases o with
      | none =>
        have hstep : loadLines (l :: ls) = loadLines ls := by
          simp only [loadLines, hdl]
        rw [hstep, ih]
        simp [hne]
      | some t =>
        have hstep : loadLines (l :: ls) = (loadLines ls).map (t :: ·) := by
          simp only [loadLines, hdl]
        rw [hstep, Option.map_eq_none', ih]
        simp [hne]

/-! ## `next_id` fold facts -/

/-- The id-max fold dominates its initial value. -/
theorem foldl_max_ge_init (v : List Task) (init : Int) :
    init ≤ v.foldl (fun m t => max m t.id) init := by
  induction v generalizing init with
  | nil => exact le_refl init
  | cons t ts ih =>
    calc init ≤ max init t.id := le_max_left init t.id
    _ ≤ ts.foldl (fun m t => max m t.id) (max init t.id) := ih (max init t.id)

/-- The id-max fold dominates every id in the list. -/
theorem foldl_max_ge_mem (v : List Task) (init : Int) :
    ∀ t ∈ v, t.id ≤ v.foldl (fun m t => max m t.id) init := by
  induction v generalizing init with
  | nil => intro t h; cases h
  | cons u us ih =>
    intro t ht
    rcases List.mem_cons.1 ht with h | h
    · calc t.id ≤ max init u.id := h ▸ le_max_right init u.id
      _ ≤ us.foldl (fun m t => max m t.id) (max init u.id) := foldl_max_ge_init us _
    · exact ih (max init u.id) t h

/-- The id-max fold yields its initial value or one of the ids. -/
theorem foldl_max_cases (v : List Task) (init : Int) :
    v.foldl (fun m t => max m t.id) init = init ∨
      ∃ t ∈ v, v.foldl (fun m t => max m t.id) init = t.id := by
  induction v generalizing init with
  | nil => exact Or.inl rfl
  | cons u us ih =>
    have hstep : (u :: us).foldl (fun m t => max m t.id) init =
        us.foldl (fun m t => max m t.id) (max init u.id) := rfl
    rcases ih (max init u.id) with h | ⟨t, ht, h⟩
    · rcases max_choice init u.id with hm | hm
      · exact Or.inl (by rw [hstep, h, hm])
      · exact Or.inr ⟨u, List.mem_cons_self u us, by rw [hstep, h, hm]⟩
    · exact Or.inr ⟨t, List.mem_cons_of_mem u ht, by rw [hstep, h]⟩

/-! ## `markDone` facts -/

/-- `markDone` succeeds exactly when some task has the id. -/
theorem markDone_isSome {n : Int} {v : List Task} (h : ∃ t ∈ v, t.id = n) :
    ∃ w, markDone n v = some w := by
  induction v with
  | nil =>
    obtain ⟨t, ht, -⟩ := h
    cases ht
  | cons u us ih =>
    by_cases hu : u.id = n
    · exact ⟨_, by unfold markDone; rw [if_pos hu]⟩
    · obtain ⟨t, ht, hid⟩ := h
      have ht2 : t ∈ us := by
        rcases List.mem_cons.1 ht with h2 | h2
        · exact absurd (h2 ▸ hid) hu
        · exact h2
      obtain ⟨w, hw⟩ := ih ⟨t, ht2, hid⟩
      exact ⟨u :: w, by unfold markDone; rw [if_neg hu, hw]; rfl⟩

/-- Marking the result of a mark again changes nothing, and every task of
the result is an original task or an original task with `done` set. -/
theorem markDone_again {n : Int} {v w : List Task} (h : markDone n v = some w) :
    markDone n w = some w ∧
      ∀ u ∈ w, u ∈ v ∨ ∃ t ∈ v, u = { t with done := true } := by
  induction v generalizing w with
  | nil => cases h
  | cons t ts ih =>
    by_cases ht : t.id = n
    · unfold markDone at h
      rw [if_pos ht] at h
      injection h with h
      subst h
      constructor
      · unfold markDone
        rw [if_pos ht]
      · intro u hu
        rcases List.mem_cons.1 hu with h2 | h2
        · exact Or.inr ⟨t, List.mem_cons_self t ts, h2⟩
        · exact Or.inl (List.mem_cons_of_mem t h2)
    · unfold markDone at h
      rw [if_neg ht] at h
      cases hm : markDone n ts with
      | none =>
        rw [hm] at h
        cases h
      | some w2 =>
        rw [hm] at h
        rw [Option.map_some'] at h
        injection h with h
        subst h
        obtain ⟨hagain, hmem⟩ := ih hm
        constructor
        · unfold markDone
          rw [if_neg ht, hagain]
          rfl
        · intro u hu
          rcases List.mem_cons.1 hu with h2 | h2
          · exact Or.inl (h2 ▸ List.mem_cons_self t ts)
          · rcases hmem u h2 with h3 | ⟨t2, ht2, h3⟩
            · exact Or.inl (List.mem_cons_of_mem t h3)
            · exact Or.inr ⟨t2, List.mem_cons_of_mem t ht2, h3⟩

/-- Setting the `done` flag preserves storability. -/
theorem storable_setDone {t : Task} (h : storable t) :
    storable { t with done := true } := h

/-! ## More codec facts: saved files split back into their lines -/

/-- A saved file splits into the encoded lines of its tasks, provided no
encoded line contains a newline. -/
theorem split_save {v : List Task} (h : ∀ u ∈ v, '\n' ∉ encodeLine u) :
    split '\n' (save_tasks v) = v.map encodeLine := by
  induction v with
  | nil => rfl
  | cons t ts ih =>
    have hsave : save_tasks (t :: ts) = encodeLine t ++ '\n' :: save_tasks ts := rfl
    rw [hsave, split_append (h t (List.mem_cons_self t ts)),
      ih fun u hu => h u (List.mem_cons_of_mem t hu)]
    rfl

/-- A task whose title encodes to the empty field produces a four-field
line. -/
theorem split_encodeLine_empty {t : Task} (hp : t.priority ≠ SEP)
    (hdue : ∀ d, t.due = some d → SEP ∉ d) (hti : encode_field t.title = []) :
    split SEP (encodeLine t) =
      [intRepr t.id, [if t.done then '1' else '0'], [t.priority],
        t.due.getD ['-']] := by
  have h1 : SEP ∉ intRepr t.id := sep_not_mem_intRepr t.id
  have h2 : SEP ∉ ([if t.done then '1' else '0'] : Str) := by
    cases t.done <;> decide
  have h3 : SEP ∉ ([t.priority] : Str) := by
    intro h
    rcases List.mem_cons.1 h with h | h
    · exact hp h.symm
    · cases h
  have h4 : SEP ∉ t.due.getD ['-'] := by
    cases hd : t.due with
    | none => decide
    | some d => exact hdue d hd
  rw [encodeLine_eq, hti, split_append h1, split_append h2, split_append h3,
    split_append h4]
  rfl

/-- A task decoded back from an encoded line never has an empty title (the
empty-title line has only four fields and is skipped instead). -/
theorem lineVal_encodeLine_title_ne_nil {w u : Task}
    (hp : w.priority ≠ SEP) (hdue : ∀ d, w.due = some d → SEP ∉ d)
    (h : lineVal (encodeLine w) = some u) : u.title ≠ [] := by
  have hmem : SEP ∈ encodeLine w := by
    rw [encodeLine_eq]
    simp
  have htr := trim_ne_nil (by decide) hmem
  by_cases hef : encode_field w.title = []
  · have hdec : decodeLine (encodeLine w) = some none := by
      unfold decodeLine
      rw [if_neg htr, split_encodeLine_empty hp hdue hef]
    unfold lineVal at h
    rw [hdec] at h
    cases h
  · have hsp := split_encodeLine hp hdue hef
    unfold lineVal decodeLine at h
    rw [if_neg htr, hsp] at h
    revert h
    show (Option.getD (match stoi (intRepr w.id) with
      | none => none
      | some i =>
        some (some
          ({ id := i
             done := [if w.done then '1' else '0'] = ['1']
             priority := ([w.priority] : Str).headD 'M'
             due := if w.due.getD ['-'] = ['-'] then none else some (w.due.getD ['-'])
             title := encode_field w.title } : Task))) none) = some u → u.title ≠ []
    cases stoi (intRepr w.id) with
    | none =>
      intro h
      cases h
    | some i =>
      intro h
      injection h with h
      rw [← h]
      exact hef

/-! ## Argument-scan facts for `add` -/

/-- Case normalization of a whole string to uppercase (used to state what the
specification asks of the `-p` value). -/
def upperStr (s : Str) : Str := s.map cppToUpper

/-- The `-p` block of the scan: the value is consumed, only its first
character is uppercased and checked. -/
theorem addScan_p_cons (val : Str) (rest : List Str) (pr : Char)
    (due : Option Str) (parts : List Str) :
    addScan ("-p".data :: val :: rest) pr due parts =
      if cppToUpper (firstChar val) = 'H' ∨ cppToUpper (firstChar val) = 'M' ∨
          cppToUpper (firstChar val) = 'L' then
        addScan rest (cppToUpper (firstChar val)) due parts
      else none := by
  conv_lhs => unfold addScan
  rw [if_pos rfl]

/-- A non-flag token is collected as a title word. -/
theorem addScan_word (a : Str) (rest : List Str) (pr : Char) (due : Option Str)
    (parts : List Str) (h1 : a ≠ "-p".data) (h2 : a ≠ "-d".data)
    (h3 : ¬(a ≠ [] ∧ firstChar a = '-')) :
    addScan (a :: rest) pr due parts = addScan rest pr due (parts ++ [a]) := by
  conv_lhs => unfold addScan
  rw [if_neg h1, if_neg h2, if_neg h3]

/-! ## Failing commands do not write -/

/-- A failing `add` leaves the file unchanged. -/
theorem add_cmd_exit1 {args : List Str} {file f2 : Str}
    (h : add_cmd args file = some (1, f2)) : f2 = file := by
  unfold add_cmd at h
  split at h
  · simp only [Option.some.injEq, Prod.mk.injEq] at h
    exact h.2.symm
  · split at h
    · simp only [Option.some.injEq, Prod.mk.injEq] at h
      exact h.2.symm
    · split at h
      · simp only [Option.some.injEq, Prod.mk.injEq] at h
        exact h.2.symm
      · split at h
        · cases h
        · simp only [Option.some.injEq, Prod.mk.injEq] at h
          omega

/-- A failing `list` leaves the file unchanged. -/
theorem list_cmd_exit1 {args : List Str} {file f2 : Str}
    (h : list_cmd args file = some (1, f2)) : f2 = file := by
  unfold list_cmd at h
  split at h
  · simp only [Option.some.injEq, Prod.mk.injEq] at h
    exact h.2.symm
  · split at h
    · cases h
    · simp only [Option.some.injEq, Prod.mk.injEq] at h
      omega

/-- A failing `done` leaves the file unchanged. -/
theorem done_cmd_exit1 {args : List Str} {file f2 : Str}
    (h : done_cmd args file = some (1, f2)) : f2 = file := by
  unfold done_cmd at h
  split at h
  · simp only [Option.some.injEq, Prod.mk.injEq] at h
    exact h.2.symm
  · split at h
    · simp only [Option.some.injEq, Prod.mk.injEq] at h
      exact h.2.symm
    · split at h
      · cases h
      · split at h
        · simp only [Option.some.injEq, Prod.mk.injEq] at h
          exact h.2.symm
        · simp only [Option.some.injEq, Prod.mk.injEq] at h
          omega

/-- A failing `rm` leaves the file unchanged. -/
theorem rm_cmd_exit1 {args : List Str} {file f2 : Str}
    (h : rm_cmd args file = some (1, f2)) : f2 = file := by
  unfold rm_cmd at h
  split at h
  · simp only [Option.some.injEq, Prod.mk.injEq] at h
    exact h.2.symm
  · split at h
    · simp only [Option.some.injEq, Prod.mk.injEq] at h
      exact h.2.symm
    · split at h
      · cases h
      · split at h
        · simp only [Option.some.injEq, Prod.mk.injEq] at h
          exact h.2.symm
        · simp only [Option.some.injEq, Prod.mk.injEq] at h
          omega

/-- A failing `clear` leaves the file unchanged. -/
theorem clear_cmd_exit1 {args : List Str} {file f2 : Str}
    (h : clear_cmd args file = some (1, f2)) : f2 = file := by
  unfold clear_cmd at h
  split at h
  · simp only [Option.some.injEq, Prod.mk.injEq] at h
    exact h.2.symm
  · split at h
    · cases h
    · split at h
      · simp only [Option.some.injEq, Prod.mk.injEq] at h
        omega
      · simp only [Option.some.injEq, Prod.mk.injEq] at h
        omega

/-! ## Dispatch unfoldings -/

/-- One-step unfolding of the dispatcher on a nonempty argument list. -/
theorem runMain_cons (cmd : Str) (rest : List Str) (file : Str) :
    runMain (cmd :: rest) file =
      if cmd = "help".data ∨ cmd = "-h".data ∨ cmd = "--help".data then some (0, file)
      else if cmd = "add".data then add_cmd rest file
      else if cmd = "list".data then list_cmd rest file
      else if cmd = "done".data then done_cmd rest file
      else if cmd = "rm".data then rm_cmd rest file
      else if cmd = "clear".data then clear_cmd rest file
      else some (1, file) := rfl

/-- Dispatch of the `done` command. -/
theorem runMain_done (rest : List Str) (file : Str) :
    runMain ("done".data :: rest) file = done_cmd rest file := rfl

/-- Dispatch of the `rm` command. -/
theorem runMain_rm (rest : List Str) (file : Str) :
    runMain ("rm".data :: rest) file = rm_cmd rest file := rfl

/-- Dispatch of the `add` command. -/
theorem runMain_add (rest : List Str) (file : Str) :
    runMain ("add".data :: rest) file = add_cmd rest file := rfl

/-- An upper bound on the id-max fold. -/
theorem foldl_max_le (v : List Task) (init bound : Int) (h1 : init ≤ bound)
    (h2 : ∀ t ∈ v, t.id ≤ bound) :
    v.foldl (fun m t => max m t.id) init ≤ bound := by
  induction v generalizing init with
  | nil => exact h1
  | cons u us ih =>
    exact ih (max init u.id)
      (max_le h1 (h2 u (List.mem_cons_self u us)))
      (fun t ht => h2 t (List.mem_cons_of_mem u ht))

/-! ## Dispatch unfoldings for `done` and `rm` bodies -/

/-- One-step unfolding of the `done` command on a present id argument. -/
theorem done_cmd_cons (idArg : Str) (extra : List Str) (file : Str) :
    done_cmd (idArg :: extra) file =
      if parse_int idArg < 0 then some (1, file)
      else
        match load_tasks file with
        | none => none
        | some v =>
          match markDone (parse_int idArg) v with
          | none => some (1, file)
          | some w => some (0, save_tasks w) := rfl

/-- One-step unfolding of the `rm` command on a present id argument. -/
theorem rm_cmd_cons (idArg : Str) (extra : List Str) (file : Str) :
    rm_cmd (idArg :: extra) file =
      if parse_int idArg < 0 then some (1, file)
      else
        match load_tasks file with
        | none => none
        | some v =>
          if v.all fun t => t.id ≠ parse_int idArg then some (1, file)
          else some (0, save_tasks (v.filter fun t => t.id ≠ parse_int idArg)) := rfl

/-! ## Claims -/

/-- C1: the `list` command outputs exactly the tasks matching the filter, in
the order obtained by first stably sorting the whole collection with the
comparator — incomplete before completed, then the requested sort key, then
always due (absent as sentinel), weight and id — and then filtering, so that
filtering never changes the relative order of surviving rows.  The conjuncts
state: the rows are the filter of the stable sort; the sorted list is a
permutation of the collection; the rows are a sublist of (hence in the order
of) the sorted list; a task is shown iff it is in the collection and
matches the filter; the sorted list is ordered by the comparator; the
transcribed comparator equals the spec's lexicographic comparator; and
stability — any comparator-compatible sublist of the input survives as a
sublist of the sorted output. -/
theorem C1_sort_then_filter (f : ListFilter) (key : Str) (v : List Task) :
    list_rows f key v = (sortTasks key v).filter (keeps f) ∧
    (sortTasks key v).Perm v ∧
    (list_rows f key v).Sublist (sortTasks key v) ∧
    (∀ t, t ∈ list_rows f key v ↔ t ∈ v ∧ keeps f t = true) ∧
    (sortTasks key v).Pairwise (fun a b => taskLe key a b = true) ∧
    (∀ a b : Task, taskLt key a b = decide (specCmp key a b = Ordering.lt)) ∧
    (∀ c : List Task, c.Pairwise (fun a b => taskLe key a b = true) →
      c.Sublist v → c.Sublist (sortTasks key v)) := by
  refine ⟨rfl, List.mergeSort_perm v (taskLe key), List.filter_sublist _, ?_, ?_, ?_, ?_⟩
  · intro t
    simp only [list_rows, List.mem_filter, sortTasks, List.mem_mergeSort]
  · exact List.sorted_mergeSort (taskLe_trans key) (taskLe_total key) v
  · exact taskLt_eq_specCmp key
  · intro c hc hsub
    exact List.sublist_mergeSort (taskLe_trans key) (taskLe_total key) hc hsub

/-- C1 witness: the spec's own example — a completed task dated 2024-01-01,
a pending task dated 2024-01-02, and a pending task with no due date; the
two pending ones, kept in this order, survive the sort as a sublist;
moreover both appear among the pending rows. -/
theorem C1_witness :
    ([⟨2, false, 'M', some "2024-01-02".data, "b".data⟩,
      ⟨3, false, 'M', none, "c".data⟩] : List Task).Sublist
      (sortTasks "due".data
        [⟨1, true, 'M', some "2024-01-01".data, "a".data⟩,
         ⟨2, false, 'M', some "2024-01-02".data, "b".data⟩,
         ⟨3, false, 'M', none, "c".data⟩]) ∧
    (⟨2, false, 'M', some "2024-01-02".data, "b".data⟩ : Task) ∈
      list_rows .Pending "due".data
        [⟨1, true, 'M', some "2024-01-01".data, "a".data⟩,
         ⟨2, false, 'M', some "2024-01-02".data, "b".data⟩,
         ⟨3, false, 'M', none, "c".data⟩] := by
  have h := C1_sort_then_filter .Pending "due".data
    [⟨1, true, 'M', some "2024-01-01".data, "a".data⟩,
     ⟨2, false, 'M', some "2024-01-02".data, "b".data⟩,
     ⟨3, false, 'M', none, "c".data⟩]
  constructor
  · refine h.2.2.2.2.2.2 _ (by decide) ?_
    exact (List.Sublist.refl _).cons _
  · exact (h.2.2.2.1 _).2 ⟨by decide, by decide⟩

/-- C2 counterexample: a task with an empty title (reachable, e.g. via
`add " "`) encodes to a line that decodes to no task at all — the round
trip does not yield an equal task, refuting the claim as stated for
arbitrary delimiter- and newline-free titles. -/
theorem C2_counterexample :
    decodeLine (encodeLine ⟨1, false, 'M', none, []⟩) = some none ∧
      some none ≠ some (some (⟨1, false, 'M', none, []⟩ : Task)) := by
  constructor
  · decide
  · decide

/-- C2 (amended): for every storable task — nonempty title free of the
delimiter and newline characters, priority and due field compatible with the
line format, id within `int` range — encoding to a line and decoding that
line yields the task back. -/
theorem C2_codec_roundtrip (t : Task) (h : storable t) :
    decodeLine (encodeLine t) = some (some t) :=
  decodeLine_encodeLine h

/-- C2 witness: the round trip on a concrete well-formed task. -/
theorem C2_witness :
    decodeLine (encodeLine ⟨7, true, 'H', some "2024-05-01".data, "Buy milk".data⟩) =
      some (some (⟨7, true, 'H', some "2024-05-01".data, "Buy milk".data⟩ : Task)) := by
  refine C2_codec_roundtrip _ ?_
  unfold storable
  decide

/-- C3 counterexample: `add " "` has a non-flag argument whose joined,
trimmed title is empty, yet the command succeeds with exit code 0 and stores
a task with empty title — refuting "fails whenever this resulting title is
empty". -/
theorem C3_counterexample :
    trim (joinSpace [" ".data]) = [] ∧
      runMain ["add".data, " ".data] [] = some (0, "1|0|M|-|\n".data) := by
  constructor
  · decide
  · decide

/-- C3 (amended): the stored title is the space-join of the scanned
non-flag arguments, trimmed; the command fails for a missing title exactly
when there is no non-flag argument (no argument at all, or a scan yielding
no title words) — an all-whitespace title trims to empty and is stored
anyway. -/
theorem C3_add_title_rules (args : List Str) (file : Str) :
    (args = [] → add_cmd args file = some (1, file)) ∧
    (∀ pr due, addScan args 'M' none [] = some (pr, due, []) →
      add_cmd args file = some (1, file)) ∧
    (∀ pr due parts v, addScan args 'M' none [] = some (pr, due, parts) →
      parts ≠ [] → load_tasks file = some v →
      add_cmd args file = some (0, save_tasks (v ++
        [{ id := next_id v, done := false, priority := pr, due := due,
           title := trim (joinSpace parts) }]))) := by
  refine ⟨?_, ?_, ?_⟩
  · intro h
    subst h
    rfl
  · intro pr due hscan
    by_cases hargs : args = []
    · subst hargs
      rfl
    · simp only [add_cmd, if_neg hargs, hscan]
      rw [if_pos trivial]
  · intro pr due parts v hscan hne hload
    have hargs : args ≠ [] := by
      intro e
      subst e
      have : (('M', (none : Option Str), ([] : List Str)) : Char × Option Str × List Str)
          = (pr, due, parts) := by
        have h2 : some (('M', (none : Option Str), ([] : List Str))) = some (pr, due, parts) :=
          hscan
        injection h2
      have hp : parts = [] := (congrArg (fun x => x.2.2) this).symm
      exact hne hp
    simp only [add_cmd, if_neg hargs, hscan, if_neg hne, hload]

/-- C3 witness: a normal `add` stores the joined trimmed title. -/
theorem C3_witness :
    add_cmd ["Buy".data, "milk".data] [] = some (0, "1|0|M|-|Buy milk\n".data) := by
  have h := (C3_add_title_rules ["Buy".data, "milk".data] []).2.2 'M' none
    ["Buy".data, "milk".data] [] (by decide) (by decide) (by decide)
  rw [h]
  decide

/-- C4 counterexample: `-p high` is accepted (priority stored as H) although
the uppercased value "HIGH" is not one of the strings H, M, L — refuting the
claim that the whole value must be one of those strings. -/
theorem C4_counterexample :
    upperStr "high".data ∉ (["H".data, "M".data, "L".data] : List Str) ∧
      runMain ["add".data, "x".data, "-p".data, "high".data] [] =
        some (0, "1|0|H|-|x\n".data) := by
  constructor
  · decide
  · decide

/-- C4 (amended): the `-p` value's first character is case-normalized to
uppercase and the command succeeds exactly when that character is H, M or L
(storing it as the priority); any other first character fails the command
with exit 1 and no task added. -/
theorem C4_priority_first_char (w val : Str) (file : Str) (v : List Task)
    (hw2 : firstChar w ≠ '-') (hload : load_tasks file = some v) :
    add_cmd [w, "-p".data, val] file =
      if cppToUpper (firstChar val) = 'H' ∨ cppToUpper (firstChar val) = 'M' ∨
          cppToUpper (firstChar val) = 'L' then
        some (0, save_tasks (v ++
          [{ id := next_id v, done := false,
             priority := cppToUpper (firstChar val), due := none,
             title := trim w }]))
      else some (1, file) := by
  have h1 : w ≠ "-p".data := by
    intro e
    rw [e] at hw2
    exact hw2 rfl
  have h2 : w ≠ "-d".data := by
    intro e
    rw [e] at hw2
    exact hw2 rfl
  have h3 : ¬(w ≠ [] ∧ firstChar w = '-') := fun hh => hw2 hh.2
  have hscan1 := addScan_word w ["-p".data, val] 'M' none [] h1 h2 h3
  simp only [List.nil_append] at hscan1
  have hscan2 := addScan_p_cons val [] 'M' none [w]
  by_cases hc : cppToUpper (firstChar val) = 'H' ∨ cppToUpper (firstChar val) = 'M' ∨
      cppToUpper (firstChar val) = 'L'
  · rw [if_pos hc] at hscan2 ⊢
    have hscan : addScan [w, "-p".data, val] 'M' none [] =
        some (cppToUpper (firstChar val), none, [w]) := by
      rw [hscan1, hscan2]
      rfl
    simp only [add_cmd, if_neg (List.cons_ne_nil w ["-p".data, val]), hscan,
      if_neg (List.cons_ne_nil w []), hload]
    rfl
  · rw [if_neg hc] at hscan2 ⊢
    have hscan : addScan [w, "-p".data, val] 'M' none [] = none := by
      rw [hscan1, hscan2]
    simp only [add_cmd, if_neg (List.cons_ne_nil w ["-p".data, val]), hscan]

/-- C4 witness: a lowercase value "m" is accepted via its uppercased first
character. -/
theorem C4_witness :
    add_cmd ["x".data, "-p".data, "m".data] [] = some (0, "1|0|M|-|x\n".data) := by
  have h := C4_priority_first_char "x".data "m".data [] [] (by decide) (by decide)
  rw [h]
  decide

/-- C5 counterexample: a store whose task with id 1 has an empty title
(stored as `1|0|M|-||`).  The store contains task 1, the first `done 1`
succeeds with exit 0, but the rewritten record has only four fields, so the
second `done 1` does not find the task and exits 1 — refuting "succeeds
both times" for arbitrary stores. -/
theorem C5_counterexample :
    load_tasks "1|0|M|-||\n".data = some [⟨1, false, 'M', none, []⟩] ∧
      runMain ["done".data, "1".data] "1|0|M|-||\n".data =
        some (0, "1|1|M|-|\n".data) ∧
      runMain ["done".data, "1".data] "1|1|M|-|\n".data =
        some (1, "1|1|M|-|\n".data) := by
  refine ⟨?_, ?_, ?_⟩
  · decide
  · decide
  · decide

/-- C5 (amended): for a store of storable tasks (in particular, titles are
nonempty, so records survive a save/load cycle) containing a task with id
`n`, running `done n` twice succeeds both times with exit 0 and the file
after the second run equals the file after the first. -/
theorem C5_done_idempotent (f : Str) (v : List Task) (n : Int) (s : Str)
    (hload : load_tasks f = some v) (hst : ∀ t ∈ v, storable t)
    (hs : stoi s = some n) (hn : 0 ≤ n) (hmem : ∃ t ∈ v, t.id = n) :
    ∃ f1, runMain ["done".data, s] f = some (0, f1) ∧
      runMain ["done".data, s] f1 = some (0, f1) := by
  have hpi : parse_int s = n := by
    unfold parse_int
    rw [hs]
    rfl
  have hnn : ¬(n < 0) := not_lt.2 hn
  obtain ⟨v1, hv1⟩ := markDone_isSome hmem
  obtain ⟨hagain, hmemprop⟩ := markDone_again hv1
  have hst1 : ∀ u ∈ v1, storable u := by
    intro u hu
    rcases hmemprop u hu with h | ⟨t, ht, rfl⟩
    · exact hst u h
    · exact storable_setDone (hst t ht)
  have hload1 : load_tasks (save_tasks v1) = some v1 := load_save hst1
  refine ⟨save_tasks v1, ?_, ?_⟩
  · rw [runMain_done, done_cmd_cons, hpi, if_neg hnn, hload]
    show (match markDone n v with
      | none => some (1, f)
      | some w => some (0, save_tasks w)) = some (0, save_tasks v1)
    rw [hv1]
  · rw [runMain_done, done_cmd_cons, hpi, if_neg hnn, hload1]
    show (match markDone n v1 with
      | none => some (1, save_tasks v1)
      | some w => some (0, save_tasks w)) = some (0, save_tasks v1)
    rw [hagain]

/-- C5 witness: `done 1` twice on a one-task store. -/
theorem C5_witness :
    ∃ f1, runMain ["done".data, "1".data] "1|0|M|-|a\n".data = some (0, f1) ∧
      runMain ["done".data, "1".data] f1 = some (0, f1) := by
  refine C5_done_idempotent "1|0|M|-|a\n".data [⟨1, false, 'M', none, ['a']⟩] 1
    "1".data (by decide) ?_ (by decide) (by decide) ?_
  · intro t ht
    rw [List.mem_singleton.1 ht]
    unfold storable
    decide
  · exact ⟨⟨1, false, 'M', none, ['a']⟩, List.mem_singleton.2 rfl, rfl⟩

/-- C6: every command invocation that exits with status 1 — id not found for
`done`/`rm`, and every argument-validation failure — leaves the stored task
file unchanged: in the model each failing branch returns the incoming file
content untouched, and the statement holds for every argument list and
every file content (even contents whose load would abort). -/
theorem C6_fail_no_write (args : List Str) (file f2 : Str)
    (h : runMain args file = some (1, f2)) : f2 = file := by
  cases args with
  | nil =>
    unfold runMain at h
    simp at h
  | cons cmd rest =>
    rw [runMain_cons] at h
    by_cases h1 : cmd = "help".data ∨ cmd = "-h".data ∨ cmd = "--help".data
    · rw [if_pos h1] at h
      simp at h
    · rw [if_neg h1] at h
      by_cases h2 : cmd = "add".data
      · rw [if_pos h2] at h
        exact add_cmd_exit1 h
      · rw [if_neg h2] at h
        by_cases h3 : cmd = "list".data
        · rw [if_pos h3] at h
          exact list_cmd_exit1 h
        · rw [if_neg h3] at h
          by_cases h4 : cmd = "done".data
          · rw [if_pos h4] at h
            exact done_cmd_exit1 h
          · rw [if_neg h4] at h
            by_cases h5 : cmd = "rm".data
            · rw [if_pos h5] at h
              exact rm_cmd_exit1 h
            · rw [if_neg h5] at h
              by_cases h6 : cmd = "clear".data
              · rw [if_pos h6] at h
                exact clear_cmd_exit1 h
              · rw [if_neg h6] at h
                simp only [Option.some.injEq, Prod.mk.injEq] at h
                exact h.2.symm

/-- C6 witness: `rm 999` on a store without id 999 exits 1 and leaves the
file unchanged. -/
theorem C6_witness :
    runMain ["rm".data, "999".data] "1|0|M|-|a\n".data =
        some (1, "1|0|M|-|a\n".data) ∧
      "1|0|M|-|a\n".data = "1|0|M|-|a\n".data := by
  refine ⟨by decide, ?_⟩
  exact C6_fail_no_write ["rm".data, "999".data] "1|0|M|-|a\n".data _ (by decide)

/-- C7 counterexample: on a collection whose only task has the (hand-edited,
loadable) id -3, `next_id` returns 1, not one more than the maximum id
present (-3 + 1 = -2) — refuting the claim for arbitrary collections. -/
theorem C7_counterexample :
    next_id [⟨-3, false, 'M', none, ['a']⟩] = 1 ∧ (1 : Int) ≠ -3 + 1 := by
  constructor
  · decide
  · decide

/-- C7 (amended): `next_id` returns 1 on the empty collection, is strictly
greater than every id present, always equals 1 or some id plus one, and —
whenever the maximum id is nonnegative, in particular for collections
satisfying the data model's positive-id invariant — equals the maximum id
plus one. -/
theorem C7_next_id_spec (v : List Task) :
    (v = [] → next_id v = 1) ∧
    (∀ t ∈ v, t.id < next_id v) ∧
    (next_id v = 1 ∨ ∃ t ∈ v, next_id v = t.id + 1) ∧
    (∀ m : Int, 0 ≤ m → (∃ t ∈ v, t.id = m) → (∀ t ∈ v, t.id ≤ m) →
      next_id v = m + 1) := by
  refine ⟨?_, ?_, ?_, ?_⟩
  · intro h
    subst h
    rfl
  · intro t ht
    have := foldl_max_ge_mem v 0 t ht
    unfold next_id
    omega
  · unfold next_id
    rcases foldl_max_cases v 0 with h | ⟨t, ht, h⟩
    · refine Or.inl ?_
      simp [h]
    · exact Or.inr ⟨t, ht, by rw [h]⟩
  · rintro m hm ⟨t, ht, hid⟩ hall
    have h1 : m ≤ v.foldl (fun m t => max m t.id) 0 := by
      rw [← hid]
      exact foldl_max_ge_mem v 0 t ht
    have h2 : v.foldl (fun m t => max m t.id) 0 ≤ m := foldl_max_le v 0 m hm hall
    unfold next_id
    omega

/-- C7 witness: the spec's example — ids 1, 3, 5 give 6. -/
theorem C7_witness :
    next_id [⟨1, false, 'M', none, ['a']⟩, ⟨3, false, 'M', none, ['b']⟩,
      ⟨5, false, 'M', none, ['c']⟩] = 5 + 1 := by
  refine (C7_next_id_spec _).2.2.2 5 (by decide) ?_ (by decide)
  exact ⟨⟨5, false, 'M', none, ['c']⟩, by decide, rfl⟩

/-- C8 counterexample: "5x" is not a valid non-negative integer numeral, yet
`done 5x` on a store containing id 5 succeeds with exit 0 and marks task 5
done (the store file changes) — refuting "any argument that is not a valid
non-negative integer makes the command fail". -/
theorem C8_counterexample :
    ¬("5x".data ≠ [] ∧ "5x".data.all Char.isDigit = true) ∧
      runMain ["done".data, "5x".data] "5|0|M|-|a\n".data =
        some (0, "5|1|M|-|a\n".data) := by
  constructor
  · decide
  · decide

/-- C8 (amended): the id argument of `done` and `rm` is parsed with
`std::stoi` semantics (optional whitespace and sign, then a maximal digit
run, trailing characters ignored); the command fails with exit 1 — before
the store is even read — exactly when parsing fails, overflows, or yields a
negative value; otherwise the parsed value is used as the id. -/
theorem C8_id_arg_validation (idArg : Str) (extra : List Str) (file : Str) :
    ((stoi idArg = none ∨ ∃ n, stoi idArg = some n ∧ n < 0) →
      runMain ("done".data :: idArg :: extra) file = some (1, file) ∧
      runMain ("rm".data :: idArg :: extra) file = some (1, file)) ∧
    (∀ n : Int, stoi idArg = some n → 0 ≤ n →
      runMain ("done".data :: idArg :: extra) file =
        (match load_tasks file with
         | none => none
         | some v =>
           match markDone n v with
           | none => some (1, file)
           | some w => some (0, save_tasks w))) := by
  constructor
  · intro h
    have hlt : parse_int idArg < 0 := by
      rcases h with h | ⟨n, hn, hneg⟩
      · unfold parse_int
        rw [h]
        decide
      · unfold parse_int
        rw [hn]
        exact hneg
    constructor
    · rw [runMain_done, done_cmd_cons, if_pos hlt]
    · rw [runMain_rm, rm_cmd_cons, if_pos hlt]
  · intro n hn h0
    have hpi : parse_int idArg = n := by
      unfold parse_int
      rw [hn]
      rfl
    rw [runMain_done, done_cmd_cons, hpi, if_neg (not_lt.2 h0)]

/-- C8 witness: a negative id argument fails both commands before the store
is read (the file content here is not even loadable). -/
theorem C8_witness :
    runMain ["done".data, "-3".data] "zz".data = some (1, "zz".data) ∧
      runMain ["rm".data, "-3".data] "zz".data = some (1, "zz".data) :=
  (C8_id_arg_validation "-3".data [] "zz".data).1
    (Or.inr ⟨-3, by decide, by decide⟩)

/-- C9 counterexample: a record with five fields whose id field has no
digits makes `std::stoi` throw, aborting the process — `load` returns
nothing at all instead of the remaining decoded tasks, refuting the claim
for arbitrary data-file contents. -/
theorem C9_counterexample : load_tasks "x|0|M|-|t\n".data = none := by decide

/-- C9 (amended): `load` silently skips blank lines and lines with fewer
than five fields; when every line's id field parses (no abort), it returns
exactly the decoded tasks of the surviving lines in file order; and it
aborts exactly when some non-skipped line's decode aborts. -/
theorem C9_tolerant_load (content : Str) :
    (∀ l ∈ split '\n' content, skipLine l = true → decodeLine l = some none) ∧
    ((∀ l ∈ split '\n' content, decodeLine l ≠ none) →
      load_tasks content = some ((split '\n' content).filterMap lineVal)) ∧
    (load_tasks content = none ↔ ∃ l ∈ split '\n' content, decodeLine l = none) := by
  refine ⟨?_, ?_, ?_⟩
  · intro l _ h
    exact decodeLine_of_skip h
  · intro h
    exact loadLines_eq_some_iff.2 ⟨h, rfl⟩
  · exact loadLines_eq_none_iff

/-- C9 witness: a file with a blank line, a well-formed record, a malformed
short line, and another record loads the two records in order. -/
theorem C9_witness :
    load_tasks "\n1|0|M|-|a\nbad\n2|1|L|x|y\n".data =
        some ((split '\n' "\n1|0|M|-|a\nbad\n2|1|L|x|y\n".data).filterMap lineVal) ∧
      (split '\n' "\n1|0|M|-|a\nbad\n2|1|L|x|y\n".data).filterMap lineVal =
        [⟨1, false, 'M', none, ['a']⟩, ⟨2, true, 'L', some ['x'], ['y']⟩] := by
  refine ⟨(C9_tolerant_load _).2.1 (by decide), by decide⟩

/-- C10: a task with an empty title encodes to a line with a trailing
delimiter whose split has only four fields; the decoder skips it, and saving
any collection of line-compatible tasks containing such a task and loading
the file back drops the task — it silently disappears. -/
theorem C10_empty_title_dropped (t : Task) (ht : t.title = [])
    (hp : t.priority ≠ SEP) (hdue : ∀ d, t.due = some d → SEP ∉ d) :
    (∃ l : Str, encodeLine t = l ++ [SEP]) ∧
    (split SEP (encodeLine t)).length = 4 ∧
    decodeLine (encodeLine t) = some none ∧
    (∀ v ts, t ∈ v →
      (∀ u ∈ v, u.priority ≠ SEP ∧ u.priority ≠ '\n' ∧
        (∀ d, u.due = some d → SEP ∉ d ∧ '\n' ∉ d)) →
      load_tasks (save_tasks v) = some ts → t ∉ ts) := by
  have hef : encode_field t.title = [] := by
    rw [ht]
    rfl
  have hsp := split_encodeLine_empty hp hdue hef
  have hmem : SEP ∈ encodeLine t := by
    rw [encodeLine_eq]
    simp
  have htr := trim_ne_nil (by decide) hmem
  have hdec : decodeLine (encodeLine t) = some none := by
    unfold decodeLine
    rw [if_neg htr, hsp]
  refine ⟨?_, ?_, hdec, ?_⟩
  · refine ⟨intRepr t.id ++ SEP :: ([if t.done then '1' else '0']
      ++ SEP :: ([t.priority] ++ SEP :: t.due.getD ['-'])), ?_⟩
    rw [encodeLine_eq, hef]
    simp [List.append_assoc]
  · rw [hsp]
    rfl
  · intro v ts htv hwf hload
    have hnl : ∀ u ∈ v, '\n' ∉ encodeLine u := by
      intro u hu
      exact newline_not_mem_encodeLine2 (hwf u hu).2.1
        (fun d hd => ((hwf u hu).2.2 d hd).2)
    have hlines : split '\n' (save_tasks v) = v.map encodeLine := split_save hnl
    have h2 : loadLines (v.map encodeLine) = some ts := by
      rw [← hlines]
      exact hload
    have hts : ts = (v.map encodeLine).filterMap lineVal :=
      (loadLines_eq_some_iff.1 h2).2
    intro hts2
    rw [hts] at hts2
    rcases List.mem_filterMap.1 hts2 with ⟨l, hl, hlv⟩
    rcases List.mem_map.1 hl with ⟨w, hwv, rfl⟩
    exact lineVal_encodeLine_title_ne_nil (hwf w hwv).1
      (fun d hd => ((hwf w hwv).2.2 d hd).1) hlv ht

/-- C10 witness: the concrete empty-title task has a four-field encoded line
and is gone after a save/load of the singleton collection. -/
theorem C10_witness :
    (split SEP (encodeLine ⟨1, false, 'M', none, []⟩)).length = 4 ∧
      (⟨1, false, 'M', none, []⟩ : Task) ∉ ([] : List Task) := by
  have h := C10_empty_title_dropped ⟨1, false, 'M', none, []⟩ rfl (by decide)
    (fun d hd => nomatch hd)
  refine ⟨h.2.1, ?_⟩
  refine h.2.2.2 [⟨1, false, 'M', none, []⟩] [] (by decide) ?_ (by decide)
  intro u hu
  rw [List.mem_singleton.1 hu]
  exact ⟨by decide, by decide, fun d hd => nomatch hd⟩

end TaskCLI
